import Mathlib

/-!
Verification of the repository document search engine of `deso-mcp.js`.

This file shallowly embeds the document-search subsystem of `src/deso-mcp.js`:
the functions `searchRepositoryDocuments`, `searchInDirectory`,
`isSearchableFile`, `findMatches`, `getDocumentTitle`, `createExcerpt` and
`readRepositoryDocument`, together with the host facilities they rely on
(Node `path` helpers, `String.prototype` methods, and the `RegExp` engine).

Modelling conventions:

* JavaScript strings are modelled as `List Char` (`JStr`).  The source only
  manipulates ASCII text in the places the claims touch, so `toLowerCase`,
  `trim`, string length and case-insensitive matching are modelled on the
  ASCII range.
* Thrown-and-caught JavaScript exceptions are modelled with `Option`: a
  function that can throw returns `none` for the throwing executions, and the
  `try { ... } catch { ... }` blocks of the source turn `none` into the
  behaviour of the corresponding `catch` body.
* The filesystem is modelled as an inductive tree (`FsTree`), with explicit
  constructors for a file whose read throws and a directory whose listing
  throws, and the repository roots as a function from repository name to a
  `RepoRoot` (the outcome of `fs.stat`).
* The host `RegExp` engine (the source interpolates search terms directly
  into `new RegExp(term, 'g')`) is modelled, following ECMA-262, on the
  fragment of patterns built from ordinary literal characters plus `.`, `*`
  and `+`.  Patterns containing further special characters are outside the
  modelled fragment and are mapped to `none` as well; every theorem that
  depends on `RegExp` behaviour therefore restricts its pattern arguments to
  the modelled fragment (`fragmentPat` / `plainTerm`).

All definitions are structurally recursive, so concrete runs evaluate with
`decide`.
-/

namespace DesoMcp

/-- JavaScript strings, modelled as lists of characters. -/
abbrev JStr := List Char

/-- Model of `String.prototype.toLowerCase` on the ASCII range. -/
def jsToLower (s : JStr) : JStr := s.map Char.toLower

/-- ASCII whitespace characters recognised by `String.prototype.trim`. -/
def isJsSpace (c : Char) : Bool :=
  c = ' ' || c = '\t' || c = '\n' || c = '\x0b' || c = '\x0c' || c = '\r'

/-- Model of `String.prototype.trim` (ASCII whitespace). -/
def jsTrim (s : JStr) : JStr :=
  ((s.dropWhile isJsSpace).reverse.dropWhile isJsSpace).reverse

/-- Model of `str.split(sep)` for a one-character separator `sep`: splitting
the empty string gives `[""]`, and empty fields between adjacent separators
are kept, exactly as in JavaScript. -/
def jsSplitChar (sep : Char) : JStr → List JStr
  | [] => [[]]
  | c :: rest =>
    match jsSplitChar sep rest with
    | [] => [[c]]
    | f :: fs => if c = sep then [] :: f :: fs else (c :: f) :: fs

/-- Model of `String.prototype.includes`: `needle` occurs as a contiguous
substring of the argument. -/
def containsSub (needle : JStr) : JStr → Bool
  | [] => needle.isEmpty
  | s@(_ :: rest) => needle.isPrefixOf s || containsSub needle rest

/-- Join a list of strings with a separator (model of `Array.prototype.join`). -/
def joinWith (sep : JStr) : List JStr → JStr
  | [] => []
  | [x] => x
  | x :: xs => x ++ sep ++ joinWith sep xs

/-! ## The host `RegExp` engine, on the modelled fragment

`findMatches` evaluates `new RegExp(term, 'g')` and `createExcerpt` evaluates
`new RegExp('(' + term + ')', 'gi')` with the raw, unescaped search term as
the pattern body.  We model the engine for patterns built from ordinary
literal characters together with `.` (any character except a line
terminator) and the quantifiers `*` and `+`.  A quantifier with nothing to
repeat is a `SyntaxError` of the constructor, modelled as `none`. -/

/-- The characters that are special in a JavaScript regular expression
pattern. -/
def regexSpecial (c : Char) : Bool :=
  c = '\\' || c = '^' || c = '$' || c = '.' || c = '*' || c = '+' || c = '?' ||
  c = '(' || c = ')' || c = '[' || c = ']' || c = '\x7b' || c = '\x7d' || c = '|'

/-- Patterns whose `RegExp` behaviour this development models: every character
is either an ordinary literal character or one of `.`, `*`, `+`. -/
def fragmentPat (t : JStr) : Bool :=
  t.all (fun c => !regexSpecial c || c = '.' || c = '*' || c = '+')

/-- A term the regex engine treats as a plain literal string: no special
characters at all. -/
def plainTerm (t : JStr) : Bool := t.all (fun c => !regexSpecial c)

/-- An atom of the modelled pattern fragment. -/
inductive RAtom where
  | lit (c : Char)
  | dot
deriving DecidableEq

/-- Quantifier attached to an atom (`one` = no quantifier). -/
inductive RQuant where
  | one
  | star
  | plus
deriving DecidableEq

/-- One quantified atom of a parsed pattern. -/
structure RPiece where
  atom : RAtom
  quant : RQuant
deriving DecidableEq

/-- Parser for the modelled pattern fragment, following ECMA-262: `.` is an
any-character atom, `*` and `+` quantify the preceding unquantified atom
(with "nothing to repeat" a `SyntaxError`, modelled as `none`), and every
other modelled character is a literal atom.  Patterns containing unmodelled
special characters are mapped to `none` as well; theorems that depend on the
parser restrict to `fragmentPat`. -/
def parsePat : JStr → List RPiece → Option (List RPiece)
  | [], acc => some acc.reverse
  | c :: cs, acc =>
    if c = '.' then parsePat cs (⟨.dot, .one⟩ :: acc)
    else if c = '*' || c = '+' then
      match acc with
      | [] => none
      | p :: ps =>
        if p.quant = .one then
          parsePat cs (⟨p.atom, if c = '*' then .star else .plus⟩ :: ps)
        else none
    else if regexSpecial c then none
    else parsePat cs (⟨.lit c, .one⟩ :: acc)

/-- Parse a whole pattern (the body handed to `new RegExp`). -/
def parsePattern (t : JStr) : Option (List RPiece) := parsePat t []

/-- Whether an atom matches one character; `ci` is the `i` flag (ASCII case
folding).  `.` matches everything except a line terminator. -/
def atomMatch (ci : Bool) (a : RAtom) (c : Char) : Bool :=
  match a with
  | .dot => !(c = '\n' || c = '\r')
  | .lit l => if ci then l.toLower = c.toLower else l = c

/-- Length of the maximal run of characters matching atom `a` at the front of
the input. -/
def runLen (ci : Bool) (a : RAtom) : JStr → Nat
  | [] => 0
  | c :: rest => if atomMatch ci a c then runLen ci a rest + 1 else 0

/-- Greedy backtracking for a quantified atom: try to consume `k` repetitions
(largest first) and then match the continuation `next` on the rest. -/
def tryRunK (next : JStr → Option Nat) (s : JStr) : Nat → Option Nat
  | 0 => next s
  | k + 1 =>
    match next (s.drop (k + 1)) with
    | some n => some (k + 1 + n)
    | none => tryRunK next s k

/-- Match a parsed pattern at the start of the input, returning the number of
characters of the (greedy, backtracking) match.  Because every quantified
subterm of the fragment is a single-character atom, this computes exactly the
match the ECMA-262 engine finds. -/
def matchPieces (ci : Bool) : List RPiece → JStr → Option Nat
  | [], _ => some 0
  | p :: ps, s =>
    match p.quant with
    | .one =>
      match s with
      | [] => none
      | c :: rest =>
        if atomMatch ci p.atom c then (matchPieces ci ps rest).map (· + 1) else none
    | .star => tryRunK (matchPieces ci ps) s (runLen ci p.atom s)
    | .plus =>
      match s with
      | [] => none
      | c :: rest =>
        if atomMatch ci p.atom c then
          (tryRunK (matchPieces ci ps) rest (runLen ci p.atom rest)).map (· + 1)
        else none

/-- Helper for the global-match count: `skip` characters of the input are
still part of a previously counted match and are passed over; afterwards the
engine looks for the next match, advancing one character on failure and after
an empty match, exactly as `String.prototype.match` with the `g` flag. -/
def countMatchesAux (ci : Bool) (ps : List RPiece) : JStr → Nat → Nat
  | [], _ => if (matchPieces ci ps []).isSome then 1 else 0
  | _ :: rest, skip + 1 => countMatchesAux ci ps rest skip
  | s@(_ :: rest), 0 =>
    match matchPieces ci ps s with
    | none => countMatchesAux ci ps rest 0
    | some 0 => 1 + countMatchesAux ci ps rest 0
    | some (n + 1) => 1 + countMatchesAux ci ps rest n

/-- Model of `(str.match(regex) || []).length` for a `g`-flagged regex. -/
def countMatches (ci : Bool) (ps : List RPiece) (s : JStr) : Nat :=
  countMatchesAux ci ps s 0

/-- Helper for global replacement with `'**$1**'` where the whole pattern is
the single capture group: every match `m` is replaced by `**m**`, an empty
match inserts `****` and the engine advances one character, as in
`String.prototype.replace` with a `g` flag. -/
def replaceMatchesAux (ci : Bool) (ps : List RPiece) : JStr → Nat → JStr
  | [], _ =>
    if (matchPieces ci ps []).isSome then '*' :: '*' :: '*' :: '*' :: [] else []
  | _ :: rest, skip + 1 => replaceMatchesAux ci ps rest skip
  | s@(c :: rest), 0 =>
    match matchPieces ci ps s with
    | none => c :: replaceMatchesAux ci ps rest 0
    | some 0 => '*' :: '*' :: '*' :: '*' :: c :: replaceMatchesAux ci ps rest 0
    | some (n + 1) =>
      '*' :: '*' :: (s.take (n + 1) ++ '*' :: '*' :: replaceMatchesAux ci ps rest n)

/-- Model of `excerpt.replace(new RegExp('(' + term + ')', 'gi'), '**$1**')`
once the term has been parsed. -/
def replaceMatches (ci : Bool) (ps : List RPiece) (s : JStr) : JStr :=
  replaceMatchesAux ci ps s 0

/-! ## Specification-side substring counting

The specification speaks of "the number of non-overlapping substring
occurrences" of a term.  `countOccur` counts occurrences of `needle` left to
right, each found occurrence consuming its characters (the empty needle
occurs once at every position, including the end). -/

/-- Helper: `skip` characters are still part of the previously counted
occurrence. -/
def countOccurAux (needle : JStr) : JStr → Nat → Nat
  | [], _ => if needle.isEmpty then 1 else 0
  | _ :: rest, skip + 1 => countOccurAux needle rest skip
  | s@(_ :: rest), 0 =>
    if needle.isPrefixOf s then 1 + countOccurAux needle rest (needle.length - 1)
    else countOccurAux needle rest 0

/-- Number of non-overlapping occurrences of `needle` in the argument,
counted left to right. -/
def countOccur (needle : JStr) (s : JStr) : Nat := countOccurAux needle s 0

/-! ## Node `path` helpers -/

/-- Index of the last `.` in a string, if any. -/
def lastDotIdx : JStr → Option Nat
  | [] => none
  | c :: rest =>
    match lastDotIdx rest with
    | some i => some (i + 1)
    | none => if c = '.' then some 0 else none

/-- Model of Node `path.extname` restricted to basenames (names containing no
`/`): the suffix starting at the last `.`, except that a name with no dot, a
name whose only dot is its first character (such as `.env`), and the name
`..` have no extension. -/
def extname (name : JStr) : JStr :=
  match lastDotIdx name with
  | none => []
  | some 0 => []
  | some i => if name = ['.', '.'] then [] else name.drop i

/-- Model of Node `path.basename` for the slash-joined paths built during
traversal (no trailing slashes): the part after the last `/`. -/
def basename (p : JStr) : JStr := (jsSplitChar '/' p).getLastD p

/-- Model of `str.replace(search, '')` for a plain string `search`: only the
first occurrence is removed; an empty `search` inserts nothing at position 0
(so the string is unchanged). -/
def removeFirst (search : JStr) : JStr → JStr
  | [] => []
  | s@(c :: rest) =>
    if search.isPrefixOf s && !search.isEmpty then s.drop search.length
    else c :: removeFirst search rest

/-- Model of `str.replace(/[-_]/g, ' ')`. -/
def dashUnderscoreToSpace (s : JStr) : JStr :=
  s.map (fun c => if c = '-' || c = '_' then ' ' else c)

/-! ## `getDocumentTitle` -/

/-- Model of `getDocumentTitle(content, fileName)`: scan the first 10 lines
for one starting with `# ` and return the trimmed text after the marker;
otherwise fall back to the filename with (the first occurrence of) its
extension removed and `-`/`_` replaced by spaces. -/
def getDocumentTitle (content fileName : JStr) : JStr :=
  let lines := jsSplitChar '\n' content
  match (lines.take 10).find? (fun l => ['#', ' '].isPrefixOf l) with
  | some line => jsTrim (line.drop 2)
  | none => dashUnderscoreToSpace (removeFirst (extname fileName) fileName)

/-! ## `isSearchableFile` -/

/-- The fixed allow-list of searchable extensions from `isSearchableFile`. -/
def searchableExtensions : List JStr :=
  [".md", ".txt", ".js", ".ts", ".go", ".json", ".yaml", ".yml", ".tsx",
   ".jsx", ".graphql", ".gql", ".css", ".scss", ".html", ".vue", ".py",
   ".sh", ".env", ".toml", ".ini", ".conf", ".config", ".lock"].map
    String.toList

/-- Model of `isSearchableFile(filename)`. -/
def isSearchableFile (filename : JStr) : Bool :=
  searchableExtensions.contains (jsToLower (extname filename)) ||
  filename = "README".toList || filename = "LICENSE".toList

/-! ## `findMatches` -/

/-- The search-result record built by `findMatches`. -/
structure SearchResult where
  title : JStr
  path : JStr
  repository : JStr
  score : Nat
  excerpt : JStr
  matchCount : Nat
deriving DecidableEq

/-- The per-line record collected in `relevantLines`. -/
structure RelevantLine where
  lineNumber : Nat
  content : JStr
  matchLine : JStr
deriving DecidableEq

/-- Model of `new RegExp(term, 'g')` applied globally to the lowercased content:
`none` models the constructor throwing. -/
def termCount (term contentLower : JStr) : Option Nat :=
  (parsePattern term).map (fun ps => countMatches false ps contentLower)

/-- The score loop of `findMatches`: the per-term global match counts are
summed; the first term whose `RegExp` construction throws aborts the whole
call (`none`). -/
def scoreOf (terms : List JStr) (contentLower : JStr) : Option Nat :=
  match terms with
  | [] => some 0
  | t :: ts =>
    match termCount t contentLower, scoreOf ts contentLower with
    | some n, some m => some (n + m)
    | _, _ => none

/-- Whether a line matches some search term, via
`searchTerms.some(term => lineLower.includes(term))`. -/
def lineMatches (terms : List JStr) (line : JStr) : Bool :=
  terms.any (fun t => containsSub t (jsToLower line))

/-- The context block of the matched line with index `i` (0-based):
`lines.slice(Math.max(0, i - 2), Math.min(lines.length, i + 3))` joined with
newlines. -/
def contextBlock (lines : List JStr) (i : Nat) : JStr :=
  joinWith ['\n'] (((lines.drop (i - 2)).take (min lines.length (i + 3) - (i - 2))))

/-- The `relevantLines` loop of `findMatches`, iterating over the remaining
lines with `i` the index of the head. -/
def relevantAux (terms : List JStr) (lines : List JStr) : Nat → List JStr → List RelevantLine
  | _, [] => []
  | i, line :: rest =>
    if lineMatches terms line then
      ⟨i + 1, contextBlock lines i, line⟩ :: relevantAux terms lines (i + 1) rest
    else relevantAux terms lines (i + 1) rest

/-- All `relevantLines` of a document. -/
def relevantLinesOf (terms lines : List JStr) : List RelevantLine :=
  relevantAux terms lines 0 lines

/-- Highlight one term in the excerpt (`'(' + term + ')'` with flags `gi`;
the group wraps the whole pattern, so `$1` is the full match). -/
def highlightTerm (t ex : JStr) : Option JStr :=
  (parsePattern t).map (fun ps => replaceMatches true ps ex)

/-- Highlight all terms in sequence. -/
def highlightAll (terms : List JStr) (ex : JStr) : Option JStr :=
  match terms with
  | [] => some ex
  | t :: ts => (highlightTerm t ex).bind (highlightAll ts)

/-- Model of `createExcerpt(relevantLines, searchTerms)`: the first relevant
block, term-highlighted, truncated to 500 characters plus an ellipsis.
`none` models a thrown `RegExp` error (unreachable when the score loop
already constructed every term's regex). -/
def createExcerpt (relevantLines : List RelevantLine) (terms : List JStr) :
    Option JStr :=
  match relevantLines with
  | [] => some []
  | best :: _ =>
    (highlightAll terms best.content).map (fun ex =>
      if 500 < ex.length then ex.take 500 ++ ('.' :: '.' :: '.' :: []) else ex)

/-- Model of Node `path.relative(base, p)` for the traversal paths, which
always extend `base ++ "/"`. -/
def relativePath (base p : JStr) : JStr :=
  if (base ++ ['/']).isPrefixOf p then p.drop (base.length + 1) else p

/-- Model of `findMatches(content, searchTerms, filePath, repository)`.
`none` models a thrown exception (a term that is not a valid regular
expression); otherwise the result is `[]` (score 0) or one `SearchResult`. -/
def findMatches (reposPath : JStr) (content : JStr) (searchTerms : List JStr)
    (filePath repository : JStr) : Option (List SearchResult) :=
  let lines := jsSplitChar '\n' content
  let contentLower := jsToLower content
  (scoreOf searchTerms contentLower).bind (fun score =>
    if score = 0 then some []
    else
      let relevantLines := relevantLinesOf searchTerms lines
      let fileName := basename filePath
      let title := getDocumentTitle content fileName
      (createExcerpt relevantLines searchTerms).map (fun excerpt =>
        [{ title := title
           path := relativePath reposPath filePath
           repository := repository
           score := score
           excerpt := excerpt
           matchCount := relevantLines.length }]))

/-! ## `searchInDirectory`: the tree walker -/

/-- A directory listing: a sequence of entries.  `file name none` is a file
whose read throws; `dirFailed` is a subdirectory whose own listing throws
(`fs.readdir` rejects). -/
inductive FsTree where
  | nil
  | file (name : JStr) (content : Option JStr) (rest : FsTree)
  | dir (name : JStr) (children : FsTree) (rest : FsTree)
  | dirFailed (name : JStr) (rest : FsTree)
deriving DecidableEq

/-- The directory filter of `searchInDirectory`:
`!name.startsWith('.') && name !== 'node_modules' && name !== '.next' &&
name !== 'dist' && name !== 'build' && name !== 'storybook-static'`. -/
def allowedDirName (name : JStr) : Bool :=
  !(['.'].isPrefixOf name) && name ≠ "node_modules".toList &&
  name ≠ ".next".toList && name ≠ "dist".toList && name ≠ "build".toList &&
  name ≠ "storybook-static".toList

/-- The per-file branch of the `searchInDirectory` loop: classify, read
(`none` = read throws, file skipped), match (`none` = `RegExp` throws,
caught by the same `try`, file skipped). -/
def searchFileEntry (reposPath dirPath repository : JStr) (terms : List JStr)
    (name : JStr) (content : Option JStr) : List SearchResult :=
  if isSearchableFile name then
    match content with
    | none => []
    | some c =>
      match findMatches reposPath c terms (dirPath ++ '/' :: name) repository with
      | none => []
      | some ms => ms
  else []

/-- Model of the body of `searchInDirectory(dirPath, repository, terms)` on a
successfully obtained listing: walk the entries in order, recursing into
allowed subdirectories and matching searchable files; a subdirectory whose
listing throws contributes `[]` (the error is caught and logged). -/
def searchListing (reposPath dirPath repository : JStr) (terms : List JStr) :
    FsTree → List SearchResult
  | .nil => []
  | .file name content rest =>
    searchFileEntry reposPath dirPath repository terms name content ++
      searchListing reposPath dirPath repository terms rest
  | .dir name children rest =>
    (if allowedDirName name then
       searchListing reposPath (dirPath ++ '/' :: name) repository terms children
     else []) ++
      searchListing reposPath dirPath repository terms rest
  | .dirFailed _ rest => searchListing reposPath dirPath repository terms rest

/-! ## `searchRepositoryDocuments`: the orchestrator -/

/-- The outcome of `fs.stat` on one configured repository root. -/
inductive RepoRoot where
  | absent
  | notDirectory
  | unlistable
  | present (listing : FsTree)

/-- The fixed repository list of `searchRepositoryDocuments`. -/
def repositories : List JStr :=
  ["docs", "core", "identity", "frontend", "backend", "deso-js", "deso-chat",
   "deso-ui", "graphql"].map String.toList

/-- The search terms: `query.toLowerCase().split(' ')`. -/
def searchTermsOf (query : JStr) : List JStr := jsSplitChar ' ' (jsToLower query)

/-- The per-repository-root step of `searchRepositoryDocuments`: a root
whose `stat` throws or that is not a directory is skipped; a root directory
whose own listing throws contributes `[]` (the `searchInDirectory` catch);
an obtained listing is walked. -/
def searchRepoRoot (reposPath : JStr) (terms : List JStr) (repo : JStr) :
    RepoRoot → List SearchResult
  | .present listing =>
    searchListing reposPath (reposPath ++ '/' :: repo) repo terms listing
  | .unlistable => []
  | .absent => []
  | .notDirectory => []

/-- The per-repository traversal of `searchRepositoryDocuments`, before
sorting. -/
def rawResults (fs : JStr → RepoRoot) (cwd : JStr) (terms : List JStr) :
    List SearchResult :=
  repositories.flatMap (fun repo =>
    searchRepoRoot (cwd ++ "/repos".toList) terms repo (fs repo))

/-- The comparator `(a, b) => b.score - a.score`: `a` may stay before `b`
exactly when `b.score ≤ a.score`. -/
def resultLE (a b : SearchResult) : Bool := b.score ≤ a.score

/-- Model of `results.sort((a, b) => b.score - a.score)`: JavaScript's sort is stable
and this comparator is a total preorder, so the result is the stable
descending-by-score ordering, i.e. a stable merge sort. -/
def sortResults (rs : List SearchResult) : List SearchResult :=
  rs.mergeSort resultLE

/-- Model of `searchRepositoryDocuments(query)`: split the query, traverse
every configured repository root, and sort the concatenated results by
descending score. -/
def searchRepositoryDocuments (fs : JStr → RepoRoot) (cwd query : JStr) :
    List SearchResult :=
  sortResults (rawResults fs cwd (searchTermsOf query))

/-! ## `readRepositoryDocument`: the document reader

`path.join` concatenates its arguments with `/` and normalises the result:
`.` and empty segments disappear and a `..` segment removes the segment
before it (at the root of an absolute path a surplus `..` is dropped).  The
reader performs no confinement check on the result. -/

/-- Normalise a segment sequence of an absolute path (accumulator holds the
processed segments in reverse). -/
def normalizeSegs : List JStr → List JStr → List JStr
  | [], acc => acc.reverse
  | seg :: rest, acc =>
    if seg = [] || seg = ['.'] then normalizeSegs rest acc
    else if seg = ['.', '.'] then
      match acc with
      | [] => normalizeSegs rest []
      | _ :: acc' => normalizeSegs rest acc'
    else normalizeSegs rest (seg :: acc)

/-- Model of Node `path.join` on absolute paths, as the normalised segment
sequence of the joined path. -/
def joinAbs (parts : List JStr) : List JStr :=
  normalizeSegs (parts.flatMap (jsSplitChar '/')) []

/-- The success payload of `readRepositoryDocument`. -/
structure ReadDoc where
  title : JStr
  content : JStr
deriving DecidableEq

/-- Model of `readRepositoryDocument({path, repository})`.  The filesystem
maps a normalised absolute segment sequence to the file's content.  The
attempted path is resolved by plain join (base repos directory, optional
repository label, given relative path); on a read failure the error response
names the attempted `docPath` (carried by `Except.error`). -/
def readRepositoryDocument (fs : List JStr → Option JStr) (cwd : JStr)
    (docPath : JStr) (repository : Option JStr) : Except JStr ReadDoc :=
  let fullSegs :=
    match repository with
    | some repo => joinAbs [cwd, "repos".toList, repo, docPath]
    | none => joinAbs [cwd, "repos".toList, docPath]
  match fs fullSegs with
  | some content => .ok ⟨getDocumentTitle content (fullSegs.getLastD []), content⟩
  | none => .error docPath

/-- The resolved segment sequence the reader attempts to read. -/
def resolvedDocSegs (cwd : JStr) (docPath : JStr) (repository : Option JStr) :
    List JStr :=
  match repository with
  | some repo => joinAbs [cwd, "repos".toList, repo, docPath]
  | none => joinAbs [cwd, "repos".toList, docPath]

/-! ## Specification-side definitions

These definitions restate parts of the natural-language specification in
their own words, to be compared with the definitions embedded from the
source. -/

/-- File eligibility as the specification words it: the extension,
lowercased, belongs to the fixed allow-list, or the filename is exactly
`README` or `LICENSE`. -/
def eligibleSpec (filename : JStr) : Bool :=
  searchableExtensions.contains (jsToLower (extname filename)) ||
  filename = "README".toList || filename = "LICENSE".toList

/-- Directory exclusion as the specification words it: the name starts with
`.` or equals one of the fixed exclusion set. -/
def excludedDirSpec (name : JStr) : Bool :=
  ['.'].isPrefixOf name ||
  ["node_modules", ".next", "dist", "build", "storybook-static"].any
    (fun e => name = e.toList)

/-- Remove every file that is not eligible, everywhere in the tree. -/
def pruneIneligible : FsTree → FsTree
  | .nil => .nil
  | .file name content rest =>
    if eligibleSpec name then .file name content (pruneIneligible rest)
    else pruneIneligible rest
  | .dir name children rest =>
    .dir name (pruneIneligible children) (pruneIneligible rest)
  | .dirFailed name rest => .dirFailed name (pruneIneligible rest)

/-- Remove every directory whose name is excluded, together with its whole
subtree. -/
def pruneExcluded : FsTree → FsTree
  | .nil => .nil
  | .file name content rest => .file name content (pruneExcluded rest)
  | .dir name children rest =>
    if excludedDirSpec name then pruneExcluded rest
    else .dir name (pruneExcluded children) (pruneExcluded rest)
  | .dirFailed name rest =>
    if excludedDirSpec name then pruneExcluded rest
    else .dirFailed name (pruneExcluded rest)

/-- The sum, over all terms, of the number of non-overlapping occurrences of
the term in the lowercased content — the score the specification describes,
for terms without regular-expression special characters. -/
def termSum (terms : List JStr) (content : JStr) : Nat :=
  (terms.map (fun t => countOccur t (jsToLower content))).sum

/-- The number of distinct lines whose lowercased text contains at least one
search term as a substring — the `matchCount` the specification describes. -/
def matchingLineCount (terms : List JStr) (content : JStr) : Nat :=
  (jsSplitChar '\n' content).countP (lineMatches terms)

/-- The fallback title exactly as the specification words it: the filename
with its extension (a suffix) stripped, then `-`/`_` replaced by spaces. -/
def specFallbackTitle (fileName : JStr) : JStr :=
  dashUnderscoreToSpace (fileName.take (fileName.length - (extname fileName).length))

/-! ## Concrete fixtures used by counterexamples and witnesses -/

/-- The one eligible document of the C2 counterexample repository. -/
def c2Tree : FsTree := .file "a.md".toList (some "hi".toList) .nil

/-- A repository-root map whose `docs` root holds `c2Tree` and whose other
roots are missing. -/
def c2Fs : JStr → RepoRoot :=
  fun repo => if repo = "docs".toList then .present c2Tree else .absent

/-- The document of the C9 witness repository: an eligible file whose text
literally contains `c++`. -/
def c9Tree : FsTree :=
  .file "notes.md".toList (some "about c++ things".toList) .nil

/-- A repository-root map whose `docs` root holds `c9Tree` and whose other
roots are missing. -/
def c9Fs : JStr → RepoRoot :=
  fun repo => if repo = "docs".toList then .present c9Tree else .absent

/-- The filesystem of the C10 theorem: one file at `/home/user/etc/passwd`,
outside the repositories directory `/home/user/repos`. -/
def c10Fs : List JStr → Option JStr :=
  fun segs =>
    if segs = ["home".toList, "user".toList, "etc".toList, "passwd".toList]
    then some "secret-data".toList else none

/-! ## Lemmas about sorting -/

theorem resultLE_trans (a b c : SearchResult) (hab : resultLE a b = true)
    (hbc : resultLE b c = true) : resultLE a c = true := by
  simp only [resultLE, decide_eq_true_eq] at *
  omega

theorem resultLE_total (a b : SearchResult) :
    (resultLE a b || resultLE b a) = true := by
  simp only [resultLE, Bool.or_eq_true, decide_eq_true_eq]
  omega

theorem sortResults_pairwise (rs : List SearchResult) :
    (sortResults rs).Pairwise (fun a b => b.score ≤ a.score) := by
  have h := List.sorted_mergeSort resultLE_trans resultLE_total rs
  exact h.imp (fun hab => by
    simpa only [resultLE, decide_eq_true_eq] using hab)

theorem sortResults_filter_score (rs : List SearchResult) (sc : Nat) :
    (sortResults rs).filter (fun r => r.score = sc)
      = rs.filter (fun r => r.score = sc) := by
  set p : SearchResult → Bool := fun r => decide (r.score = sc) with hp
  have hmemP : ∀ a ∈ rs.filter p, a.score = sc := by
    intro a ha
    exact of_decide_eq_true (@List.of_mem_filter _ p a rs ha)
  have hpair : (rs.filter p).Pairwise (fun a b => resultLE a b = true) := by
    apply List.pairwise_of_forall_mem_list
    intro a ha b hb
    simp only [resultLE, decide_eq_true_eq, hmemP a ha, hmemP b hb, le_refl]
  have hsub : (rs.filter p).Sublist (rs.mergeSort resultLE) :=
    List.sublist_mergeSort resultLE_trans resultLE_total hpair
      (List.filter_sublist rs)
  have hself : (rs.filter p).filter p = rs.filter p :=
    List.filter_eq_self.mpr (fun a ha => List.of_mem_filter ha)
  have hsub2 : (rs.filter p).Sublist ((rs.mergeSort resultLE).filter p) := by
    have := hsub.filter p
    rwa [hself] at this
  have hlen : ((rs.mergeSort resultLE).filter p).length = (rs.filter p).length :=
    ((List.mergeSort_perm rs resultLE).filter p).length_eq
  exact (hsub2.eq_of_length hlen.symm).symm

/-- C3. For every query, the list returned by `searchRepositoryDocuments`
is the stable descending-by-score sort of the concatenated per-repository
results: it is sorted by `score` in non-increasing order, and for every
score value the results carrying it appear in their encounter (traversal)
order. -/
theorem claim3_sorted_stable (fs : JStr → RepoRoot) (cwd query : JStr) :
    searchRepositoryDocuments fs cwd query
        = sortResults (rawResults fs cwd (searchTermsOf query))
    ∧ (searchRepositoryDocuments fs cwd query).Pairwise
        (fun a b => b.score ≤ a.score)
    ∧ ∀ sc : Nat,
        (searchRepositoryDocuments fs cwd query).filter (fun r => r.score = sc)
          = (rawResults fs cwd (searchTermsOf query)).filter
              (fun r => r.score = sc) := by
  refine ⟨rfl, sortResults_pairwise _, fun sc => sortResults_filter_score _ sc⟩

/-! ## Lemmas about the tree walker -/

theorem searchListing_pruneIneligible (reposPath repository : JStr)
    (terms : List JStr) :
    ∀ (t : FsTree) (dirPath : JStr),
      searchListing reposPath dirPath repository terms (pruneIneligible t)
        = searchListing reposPath dirPath repository terms t := by
  intro t
  induction t with
  | nil => intro dirPath; rfl
  | file name content rest ih =>
    intro dirPath
    by_cases h : eligibleSpec name = true
    · simp only [pruneIneligible, h, if_true, searchListing, ih]
    · have h' : isSearchableFile name = false := by
        simpa only [Bool.not_eq_true] using h
      simp only [pruneIneligible, h, if_false, searchListing, ih,
        searchFileEntry, h', Bool.false_eq_true, List.nil_append]
  | dir name children rest ihc ihr =>
    intro dirPath
    simp only [pruneIneligible, searchListing, ihc, ihr]
  | dirFailed name rest ih =>
    intro dirPath
    simp only [pruneIneligible, searchListing, ih]

/-- C4. `isSearchableFile` returns true exactly when the lowercased
extension is in the fixed allow-list or the filename is exactly `README` or
`LICENSE`; and pruning every non-eligible file from a tree leaves the search
results of every traversal unchanged, so such a file never contributes a
`SearchResult`, whatever its content. -/
theorem claim4_classifier (reposPath repository : JStr) (terms : List JStr) :
    (∀ name : JStr, isSearchableFile name = eligibleSpec name)
    ∧ ∀ (t : FsTree) (dirPath : JStr),
        searchListing reposPath dirPath repository terms (pruneIneligible t)
          = searchListing reposPath dirPath repository terms t :=
  ⟨fun _ => rfl, searchListing_pruneIneligible reposPath repository terms⟩

theorem allowedDirName_eq_not_excluded (name : JStr) :
    allowedDirName name = !excludedDirSpec name := by
  simp only [allowedDirName, excludedDirSpec, List.any_cons, List.any_nil,
    Bool.or_false, Bool.not_or, decide_not, Bool.and_assoc]

theorem searchListing_pruneExcluded (reposPath repository : JStr)
    (terms : List JStr) :
    ∀ (t : FsTree) (dirPath : JStr),
      searchListing reposPath dirPath repository terms (pruneExcluded t)
        = searchListing reposPath dirPath repository terms t := by
  intro t
  induction t with
  | nil => intro dirPath; rfl
  | file name content rest ih =>
    intro dirPath
    simp only [pruneExcluded, searchListing, ih]
  | dir name children rest ihc ihr =>
    intro dirPath
    by_cases h : excludedDirSpec name = true
    · have h' : allowedDirName name = false := by
        rw [allowedDirName_eq_not_excluded, h]; rfl
      simp only [pruneExcluded, h, if_true, searchListing, ihr, h',
        Bool.false_eq_true, if_false, List.nil_append]
    · simp only [pruneExcluded, h, if_false, searchListing, ihc, ihr]
  | dirFailed name rest ih =>
    intro dirPath
    by_cases h : excludedDirSpec name = true
    · simp only [pruneExcluded, h, if_true, searchListing, ih]
    · simp only [pruneExcluded, h, if_false, searchListing, ih]

/-- C5. The walker's directory filter accepts a name exactly when it is
not excluded (does not start with `.` and is none of `node_modules`,
`.next`, `dist`, `build`, `storybook-static`); and pruning every excluded
directory, with its whole subtree, from a tree leaves the search results of
every traversal unchanged — no file anywhere under an excluded directory
ever contributes a `SearchResult`. -/
theorem claim5_excluded_dirs (reposPath repository : JStr)
    (terms : List JStr) :
    (∀ name : JStr, allowedDirName name = !excludedDirSpec name)
    ∧ ∀ (t : FsTree) (dirPath : JStr),
        searchListing reposPath dirPath repository terms (pruneExcluded t)
          = searchListing reposPath dirPath repository terms t :=
  ⟨allowedDirName_eq_not_excluded,
   searchListing_pruneExcluded reposPath repository terms⟩

/-- C8. Failures at the file or subtree granularity are absorbed
locally: a file whose read throws contributes nothing and the rest of the
listing is searched unchanged; a subdirectory whose listing throws
contributes nothing and its siblings are searched unchanged; and a whole
listing that cannot be obtained yields the empty result set. -/
theorem claim8_local_failures (reposPath dirPath repository : JStr)
    (terms : List JStr) :
    (∀ (name : JStr) (rest : FsTree),
        searchListing reposPath dirPath repository terms (.file name none rest)
          = searchListing reposPath dirPath repository terms rest)
    ∧ (∀ (name : JStr) (rest : FsTree),
        searchListing reposPath dirPath repository terms (.dirFailed name rest)
          = searchListing reposPath dirPath repository terms rest)
    ∧ ∀ repo : JStr,
        searchRepoRoot reposPath terms repo .unlistable = [] := by
  refine ⟨fun name rest => ?_, fun name rest => rfl, fun repo => rfl⟩
  simp only [searchListing, searchFileEntry]
  by_cases h : isSearchableFile name = true <;> simp [h]

/-! ## Lemmas about the regex model on literal patterns -/

theorem parsePat_plain (cs : JStr) (h : ∀ c ∈ cs, regexSpecial c = false) :
    ∀ acc, parsePat cs acc
      = some (acc.reverse ++ cs.map (fun c => RPiece.mk (.lit c) .one)) := by
  induction cs with
  | nil => intro acc; simp [parsePat]
  | cons c cs ih =>
    intro acc
    have hc : regexSpecial c = false := h c (List.mem_cons_self c cs)
    have hdot : ¬ c = '.' := fun e => by rw [e] at hc; simp [regexSpecial] at hc
    have hstar : ¬ c = '*' := fun e => by rw [e] at hc; simp [regexSpecial] at hc
    have hplus : ¬ c = '+' := fun e => by rw [e] at hc; simp [regexSpecial] at hc
    have hb : (decide (c = '*') || decide (c = '+')) = false := by
      simp [hstar, hplus]
    rw [parsePat.eq_def]
    simp only [if_neg hdot, hb, Bool.false_eq_true, if_false, hc,
      ih (fun x hx => h x (List.mem_cons_of_mem c hx))]
    simp [List.append_assoc]

theorem parsePattern_plain (t : JStr) (h : plainTerm t = true) :
    parsePattern t = some (t.map (fun c => RPiece.mk (.lit c) .one)) := by
  have h' : ∀ c ∈ t, regexSpecial c = false := by
    intro c hc
    have := (List.all_eq_true.mp h) c hc
    simpa using this
  simpa using parsePat_plain t h' []

theorem matchPieces_lits (t : JStr) :
    ∀ s, matchPieces false (t.map (fun c => RPiece.mk (.lit c) .one)) s
      = if t.isPrefixOf s then some t.length else none := by
  induction t with
  | nil =>
    intro s
    simp [matchPieces, List.isPrefixOf]
  | cons c t ih =>
    intro s
    cases s with
    | nil => simp [matchPieces, List.isPrefixOf]
    | cons d s =>
      by_cases hcd : c = d
      · subst hcd
        simp only [List.map_cons, matchPieces, atomMatch, Bool.false_eq_true,
          if_false, decide_eq_true_eq, if_pos rfl, ih, List.isPrefixOf,
          beq_self_eq_true, Bool.true_and, List.length_cons]
        by_cases hp : t.isPrefixOf s = true
        · simp [hp]
        · simp only [Bool.not_eq_true] at hp
          simp [hp]
      · have hbeq : (c == d) = false := beq_eq_false_iff_ne.mpr hcd
        simp only [List.map_cons, matchPieces, atomMatch, Bool.false_eq_true,
          if_false, decide_eq_true_eq, if_neg hcd, List.isPrefixOf, hbeq,
          Bool.false_and]

theorem countMatchesAux_lits (t : JStr) :
    ∀ (s : JStr) (k : Nat),
      countMatchesAux false (t.map (fun c => RPiece.mk (.lit c) .one)) s k
        = countOccurAux t s k := by
  intro s
  induction s with
  | nil =>
    intro k
    cases t with
    | nil => rfl
    | cons a t => rfl
  | cons c rest ih =>
    intro k
    cases k with
    | succ k =>
      simpa only [countMatchesAux, countOccurAux] using ih k
    | zero =>
      rw [countMatchesAux, countOccurAux]
      rw [matchPieces_lits]
      by_cases hp : t.isPrefixOf (c :: rest) = true
      · rw [if_pos hp, if_pos hp]
        cases t with
        | nil => simpa using ih 0
        | cons a t' => simpa using ih t'.length
      · simp only [Bool.not_eq_true] at hp
        simp only [hp, Bool.false_eq_true, if_false, ih 0]

theorem countMatches_lits (t s : JStr) :
    countMatches false (t.map (fun c => RPiece.mk (.lit c) .one)) s
      = countOccur t s :=
  countMatchesAux_lits t s 0

theorem scoreOf_plain (terms : List JStr) (cl : JStr)
    (h : ∀ t ∈ terms, plainTerm t = true) :
    scoreOf terms cl = some ((terms.map (fun t => countOccur t cl)).sum) := by
  induction terms with
  | nil => simp [scoreOf]
  | cons t ts ih =>
    have hparse := parsePattern_plain t (h t (List.mem_cons_self t ts))
    rw [scoreOf, termCount, hparse]
    rw [ih (fun x hx => h x (List.mem_cons_of_mem t hx))]
    simp [countMatches_lits]

theorem scoreOf_none (terms : List JStr) (cl : JStr) (t : JStr)
    (ht : t ∈ terms) (hp : parsePattern t = none) : scoreOf terms cl = none := by
  induction terms with
  | nil => cases ht
  | cons a ts ih =>
    rcases List.mem_cons.mp ht with rfl | hmem
    · simp [scoreOf, termCount, hp]
    · cases htc : termCount a cl <;> simp [scoreOf, htc, ih hmem]

theorem highlightAll_isSome (terms : List JStr) (ex : JStr)
    (h : ∀ t ∈ terms, (parsePattern t).isSome = true) :
    (highlightAll terms ex).isSome = true := by
  induction terms generalizing ex with
  | nil => simp [highlightAll]
  | cons t ts ih =>
    obtain ⟨ps, hps⟩ := Option.isSome_iff_exists.mp (h t (List.mem_cons_self t ts))
    rw [highlightAll, highlightTerm, hps]
    exact ih _ (fun x hx => h x (List.mem_cons_of_mem t hx))

theorem createExcerpt_isSome (relevantLines : List RelevantLine)
    (terms : List JStr) (h : ∀ t ∈ terms, (parsePattern t).isSome = true) :
    (createExcerpt relevantLines terms).isSome = true := by
  cases relevantLines with
  | nil => rfl
  | cons best rl =>
    rw [createExcerpt]
    obtain ⟨ex, hex⟩ := Option.isSome_iff_exists.mp
      (highlightAll_isSome terms best.content h)
    rw [hex]
    rfl

theorem relevantAux_length (terms lines : List JStr) :
    ∀ (rest : List JStr) (i : Nat),
      (relevantAux terms lines i rest).length = rest.countP (lineMatches terms) := by
  intro rest
  induction rest with
  | nil => intro i; simp [relevantAux]
  | cons l rest ih =>
    intro i
    by_cases h : lineMatches terms l = true <;>
      simp [relevantAux, h, List.countP_cons, ih]

/-- When the score loop succeeds with a nonzero score and every term's
pattern parses, `findMatches` emits exactly one result, carrying that score
and the number of matching lines. -/
theorem findMatches_some_of_score (reposPath content : JStr)
    (terms : List JStr) (filePath repository : JStr) (n : Nat)
    (hs : scoreOf terms (jsToLower content) = some n) (hn : n ≠ 0)
    (hp : ∀ t ∈ terms, (parsePattern t).isSome = true) :
    ∃ r, findMatches reposPath content terms filePath repository = some [r]
      ∧ r.score = n ∧ r.matchCount = matchingLineCount terms content := by
  obtain ⟨ex, hex⟩ := Option.isSome_iff_exists.mp
    (createExcerpt_isSome (relevantLinesOf terms (jsSplitChar '\n' content)) terms hp)
  refine ⟨⟨getDocumentTitle content (basename filePath),
    relativePath reposPath filePath, repository, n, ex,
    (relevantLinesOf terms (jsSplitChar '\n' content)).length⟩, ?_, rfl, ?_⟩
  · simp only [findMatches, hs, Option.some_bind, if_neg hn, hex]
    rfl
  · simp only [matchingLineCount, relevantLinesOf, relevantAux_length]

/-! ## C1: the score of a result -/

/-- C1 counterexample.  The claim fails as stated: search terms are
interpolated into `new RegExp` unescaped, so for the term `.` — a valid
regular expression that is not a literal — `findMatches` emits a result with
score 1 on the content `x`, although `.` has zero substring occurrences in
the content, so the claimed sum is 0 and the claimed "emitted iff sum
positive" fails as well. -/
theorem claim1_counterexample :
    Option.map (List.map SearchResult.score)
        (findMatches [] "x".toList [".".toList] "docs/a.md".toList "docs".toList)
      = some [1]
    ∧ termSum [".".toList] "x".toList = 0 := by decide

/-- C1, amended.  For every document content and every non-empty set of
search terms **free of regular-expression special characters**, `findMatches`
emits a `SearchResult` if and only if the sum over all terms of the number of
non-overlapping occurrences of the term in the lowercased content is
positive, and the emitted result's `score` equals that sum.  (For the
lowercase terms the orchestrator produces, occurrences in the lowercased
content are exactly the case-insensitive occurrences in the content.) -/
theorem claim1_score_plain_terms (reposPath content : JStr)
    (terms : List JStr) (filePath repository : JStr)
    (h : ∀ t ∈ terms, plainTerm t = true) :
    ∃ ms, findMatches reposPath content terms filePath repository = some ms
      ∧ (ms ≠ [] ↔ 0 < termSum terms content)
      ∧ ∀ r ∈ ms, r.score = termSum terms content := by
  have hs : scoreOf terms (jsToLower content) = some (termSum terms content) :=
    scoreOf_plain terms (jsToLower content) h
  by_cases hz : termSum terms content = 0
  · refine ⟨[], ?_, ?_, ?_⟩
    · simp [findMatches, hs, hz]
    · simp [hz]
    · simp
  · obtain ⟨r, hr, hsc, -⟩ := findMatches_some_of_score reposPath content terms
      filePath repository (termSum terms content) hs hz
      (fun t ht => by rw [parsePattern_plain t (h t ht)]; rfl)
    exact ⟨[r], hr, by simp [Nat.pos_of_ne_zero hz], by simpa using hsc⟩

/-- Witness for C1 (amended), at the specification's own end-to-end
scenario: content `# Intro\n\nThis covers transaction flow and fees.` and
terms `transaction`, `fee` (score 2). -/
theorem claim1_witness :
    ∃ ms, findMatches []
        "# Intro\n\nThis covers transaction flow and fees.".toList
        ["transaction".toList, "fee".toList] "docs/a.md".toList "docs".toList
        = some ms
      ∧ (ms ≠ [] ↔ 0 < termSum ["transaction".toList, "fee".toList]
          "# Intro\n\nThis covers transaction flow and fees.".toList)
      ∧ ∀ r ∈ ms, r.score = termSum ["transaction".toList, "fee".toList]
          "# Intro\n\nThis covers transaction flow and fees.".toList :=
  claim1_score_plain_terms [] _ _ _ _ (by decide)

/-! ## C2: the empty query -/

theorem countMatches_nil_pat :
    ∀ s : JStr, countMatches false [] s = s.length + 1 := by
  intro s
  induction s with
  | nil => rfl
  | cons c rest ih =>
    show 1 + countMatches false [] rest = rest.length + 1 + 1
    rw [ih]
    omega

/-- C2 counterexample.  The claim fails as stated: in JavaScript
`"".split(' ')` is `[""]`, not `[]`, so the empty query yields one
empty-string term, `new RegExp("", 'g')` matches at every position, and a
repository holding one eligible file `a.md` with content `hi` returns that
file with score 3 — not an empty result list with all scores 0. -/
theorem claim2_counterexample :
    searchTermsOf [] = [[]]
    ∧ searchRepositoryDocuments c2Fs "/w".toList []
        = [⟨"a".toList, "docs/a.md".toList, "docs".toList, 3,
            "****h****i****".toList, 1⟩] := by
  refine ⟨rfl, ?_⟩
  have hraw : rawResults c2Fs "/w".toList (searchTermsOf [])
      = [⟨"a".toList, "docs/a.md".toList, "docs".toList, 3,
          "****h****i****".toList, 1⟩] := by decide
  show sortResults (rawResults c2Fs "/w".toList (searchTermsOf [])) = _
  rw [hraw]
  exact List.mergeSort_singleton _

/-- C2, amended.  The empty query yields the single empty-string search
term (`"".split(' ')` is `[""]`), and the empty-string term gives **every**
document a score of `content.length + 1` (one regex match at every position
plus the end), so every eligible document is returned rather than none: the
result list is empty only when no eligible document exists. -/
theorem claim2_empty_query_matches_everything
    (reposPath content filePath repository : JStr) :
    searchTermsOf [] = [[]]
    ∧ ∃ r, findMatches reposPath content [[]] filePath repository = some [r]
        ∧ r.score = content.length + 1 := by
  refine ⟨rfl, ?_⟩
  have hcl : (jsToLower content).length = content.length := List.length_map _ _
  have hs : scoreOf [[]] (jsToLower content) = some (content.length + 1) := by
    show (match termCount [] (jsToLower content), scoreOf [] (jsToLower content) with
      | some n, some m => some (n + m)
      | _, _ => none) = _
    rw [show termCount [] (jsToLower content)
        = some (countMatches false [] (jsToLower content)) from rfl,
      countMatches_nil_pat, hcl]
    rfl
  obtain ⟨r, hr, hsc, -⟩ := findMatches_some_of_score reposPath content [[]]
    filePath repository (content.length + 1) hs (by omega)
    (fun t ht => by
      have : t = [] := by simpa using ht
      rw [this]; rfl)
  exact ⟨r, hr, hsc⟩

/-! ## C6: at most one result per document, and its `matchCount` -/

/-- C6.  For every file, `findMatches` emits at most one `SearchResult`
however many lines match, and an emitted result's `matchCount` equals the
number of distinct lines whose lowercased text contains at least one search
term as a substring (a count independent of `score`). -/
theorem claim6_at_most_one_result (reposPath content : JStr)
    (terms : List JStr) (filePath repository : JStr) (ms : List SearchResult)
    (h : findMatches reposPath content terms filePath repository = some ms) :
    ms.length ≤ 1
      ∧ ∀ r ∈ ms, r.matchCount = matchingLineCount terms content := by
  simp only [findMatches] at h
  cases hs : scoreOf terms (jsToLower content) with
  | none => rw [hs] at h; simp at h
  | some n =>
    rw [hs, Option.some_bind] at h
    by_cases hz : n = 0
    · rw [if_pos hz] at h
      obtain rfl : ([] : List SearchResult) = ms := Option.some.inj h
      exact ⟨by simp, by simp⟩
    · rw [if_neg hz] at h
      cases hex : createExcerpt (relevantLinesOf terms (jsSplitChar '\n' content))
          terms with
      | none => rw [hex] at h; simp at h
      | some ex =>
        rw [hex] at h
        obtain rfl := Option.some.inj h
        refine ⟨by simp, ?_⟩
        intro r hr
        obtain rfl : _ = r := (List.mem_singleton.mp hr).symm
        simp only [matchingLineCount, relevantLinesOf, relevantAux_length]

/-- Witness for C6 at the specification's end-to-end scenario. -/
theorem claim6_witness :
    ([(⟨"Intro".toList, "docs/a.md".toList, "docs".toList, 2,
        "# Intro\n\nThis covers **transaction** flow and **fee**s.".toList, 1⟩ :
        SearchResult)].length ≤ 1
      ∧ ∀ r ∈ [(⟨"Intro".toList, "docs/a.md".toList, "docs".toList, 2,
          "# Intro\n\nThis covers **transaction** flow and **fee**s.".toList, 1⟩ :
          SearchResult)],
          r.matchCount = matchingLineCount ["transaction".toList, "fee".toList]
            "# Intro\n\nThis covers transaction flow and fees.".toList) :=
  claim6_at_most_one_result []
    "# Intro\n\nThis covers transaction flow and fees.".toList
    ["transaction".toList, "fee".toList] "docs/a.md".toList "docs".toList _
    (by decide)

/-! ## C9: invalid regular-expression terms -/

theorem findMatches_none_of_badterm (reposPath content : JStr)
    (terms : List JStr) (filePath repository : JStr) (t : JStr)
    (ht : t ∈ terms) (hp : parsePattern t = none) :
    findMatches reposPath content terms filePath repository = none := by
  simp [findMatches, scoreOf_none terms (jsToLower content) t ht hp]

theorem searchListing_nil_of_badterm (terms : List JStr) (t : JStr)
    (ht : t ∈ terms) (hp : parsePattern t = none) :
    ∀ (tree : FsTree) (reposPath dirPath repository : JStr),
      searchListing reposPath dirPath repository terms tree = [] := by
  intro tree
  induction tree with
  | nil => intro reposPath dirPath repository; rfl
  | file name content rest ih =>
    intro reposPath dirPath repository
    rw [searchListing, ih, searchFileEntry.eq_def]
    by_cases hfile : isSearchableFile name = true
    · cases content with
      | none => simp [hfile]
      | some c =>
        simp [hfile,
          findMatches_none_of_badterm reposPath c terms _ repository t ht hp]
    · simp only [Bool.not_eq_true] at hfile
      simp [hfile]
  | dir name children rest ihc ihr =>
    intro reposPath dirPath repository
    rw [searchListing, ihr, ihc]
    simp
  | dirFailed name rest ih =>
    intro reposPath dirPath repository
    rw [searchListing, ih]

/-- C9.  A search term that is not a valid regular expression (within
the modelled pattern fragment: for example `c++`) makes the `RegExp`
constructor throw inside the per-file `try`, so every eligible file is
silently skipped and the whole search returns an empty result list with no
error, even when documents literally contain the term. -/
theorem claim9_invalid_regex_term (fs : JStr → RepoRoot) (cwd query : JStr)
    (h : ∃ t ∈ searchTermsOf query, fragmentPat t = true ∧ parsePattern t = none) :
    searchRepositoryDocuments fs cwd query = [] := by
  obtain ⟨t, ht, -, hp⟩ := h
  have hroot : ∀ repo : JStr,
      searchRepoRoot (cwd ++ "/repos".toList) (searchTermsOf query) repo (fs repo)
        = [] := by
    intro repo
    cases hfs : fs repo with
    | present listing =>
      rw [searchRepoRoot]
      exact searchListing_nil_of_badterm _ t ht hp listing _ _ _
    | unlistable => rfl
    | absent => rfl
    | notDirectory => rfl
  have hraw : rawResults fs cwd (searchTermsOf query) = [] := by
    rw [rawResults]
    have : ∀ l : List JStr,
        (l.flatMap (fun repo =>
          searchRepoRoot (cwd ++ "/repos".toList) (searchTermsOf query) repo
            (fs repo))) = [] := by
      intro l
      induction l with
      | nil => rfl
      | cons a l ih => rw [List.flatMap_cons, ih, hroot a, List.nil_append]
    exact this repositories
  show sortResults (rawResults fs cwd (searchTermsOf query)) = []
  rw [hraw, sortResults, List.mergeSort_nil]

/-- Witness for C9: the query `c++` returns no results although the one
document contains `c++` literally. -/
theorem claim9_witness :
    searchRepositoryDocuments c9Fs "/w".toList "c++".toList = [] :=
  claim9_invalid_regex_term c9Fs "/w".toList "c++".toList (by decide)

/-! ## C7: title extraction -/

theorem find?_of_split {α : Type} (p : α → Bool) :
    ∀ (pre : List α) (x : α) (post : List α),
      (∀ l ∈ pre, p l = false) → p x = true →
      (pre ++ x :: post).find? p = some x := by
  intro pre
  induction pre with
  | nil =>
    intro x post h hx
    simpa using List.find?_cons_of_pos post hx
  | cons a pre ih =>
    intro x post h hx
    have ha : ¬ p a = true := by
      simp [h a (List.mem_cons_self a pre)]
    rw [List.cons_append, List.find?_cons_of_neg _ ha]
    exact ih x post (fun l hl => h l (List.mem_cons_of_mem a hl)) hx

/-- C7 counterexample.  The claim's fallback ("the filename with its
extension stripped") fails: the source removes the **first** occurrence of
the extension substring, not the trailing one.  For the no-heading document
and filename `a.mdx.md` (extension `.md`) the code produces `ax.md`, while
the extension-stripped name is `a.mdx`. -/
theorem claim7_counterexample :
    getDocumentTitle "no heading".toList "a.mdx.md".toList = "ax.md".toList
    ∧ specFallbackTitle "a.mdx.md".toList = "a.mdx".toList
    ∧ getDocumentTitle "no heading".toList "a.mdx.md".toList
        ≠ specFallbackTitle "a.mdx.md".toList := by decide

/-- C7, amended.  Title extraction scans at most the first 10 lines and
returns the trimmed text after the `# ` marker of the first line starting
with `# `; if no such line exists, it returns the filename with the **first
occurrence** of its extension substring removed (which equals stripping the
extension whenever the first occurrence is the trailing one, e.g. `my-doc.md`)
and every `-`/`_` replaced by a space. -/
theorem claim7_title_extraction (content fileName : JStr) :
    ((∀ l ∈ (jsSplitChar '\n' content).take 10,
        (['#', ' '].isPrefixOf l) = false) →
      getDocumentTitle content fileName
        = dashUnderscoreToSpace (removeFirst (extname fileName) fileName))
    ∧ (∀ (pre post : List JStr) (line : JStr),
        (jsSplitChar '\n' content).take 10 = pre ++ line :: post →
        (∀ l ∈ pre, (['#', ' '].isPrefixOf l) = false) →
        (['#', ' '].isPrefixOf line) = true →
        getDocumentTitle content fileName = jsTrim (line.drop 2))
    ∧ getDocumentTitle "# Hello World\nrest".toList "f.md".toList
        = "Hello World".toList
    ∧ getDocumentTitle "no heading".toList "my-doc.md".toList
        = "my doc".toList := by
  refine ⟨?_, ?_, by decide, by decide⟩
  · intro hall
    have hnone : ((jsSplitChar '\n' content).take 10).find?
        (fun l => ['#', ' '].isPrefixOf l) = none :=
      List.find?_eq_none.mpr (fun l hl => by simp [hall l hl])
    rw [getDocumentTitle]
    rw [hnone]
  · intro pre post line hsplit hpre hline
    have hfind : ((jsSplitChar '\n' content).take 10).find?
        (fun l => ['#', ' '].isPrefixOf l) = some line := by
      rw [hsplit]
      exact find?_of_split _ pre line post hpre hline
    rw [getDocumentTitle]
    rw [hfind]

/-- Witness for C7 (amended): the heading branch applied to a document whose
heading appears on line 2 after a non-heading first line, and the fallback
branch applied to a heading-less document. -/
theorem claim7_witness :
    getDocumentTitle "intro\n# Title here\nbody".toList "x-y.md".toList
        = "Title here".toList
    ∧ getDocumentTitle "plain text".toList "x_y.md".toList = "x y".toList :=
  ⟨((claim7_title_extraction "intro\n# Title here\nbody".toList
        "x-y.md".toList).2.1 ["intro".toList] ["body".toList]
        "# Title here".toList (by decide) (by decide) (by decide)).trans
      (by decide),
   ((claim7_title_extraction "plain text".toList "x_y.md".toList).1
        (by decide)).trans (by decide)⟩

/-! ## C10: the document reader resolves `..` without confinement -/

/-- C10.  `readRepositoryDocument` resolves its path by plain
concatenation, with no confinement check: with repository label `docs` and
document path `../../etc/passwd`, the resolved path is
`/home/user/etc/passwd` — outside the `docs` repository root and outside the
base repositories directory `/home/user/repos` — and the content of that
file is read and returned. -/
theorem claim10_path_escape :
    resolvedDocSegs "/home/user".toList "../../etc/passwd".toList
        (some "docs".toList)
      = ["home".toList, "user".toList, "etc".toList, "passwd".toList]
    ∧ (["home".toList, "user".toList, "repos".toList]).isPrefixOf
        (resolvedDocSegs "/home/user".toList "../../etc/passwd".toList
          (some "docs".toList)) = false
    ∧ (["home".toList, "user".toList, "repos".toList, "docs".toList]).isPrefixOf
        (resolvedDocSegs "/home/user".toList "../../etc/passwd".toList
          (some "docs".toList)) = false
    ∧ (readRepositoryDocument c10Fs "/home/user".toList
        "../../etc/passwd".toList (some "docs".toList)).toOption
      = some ⟨"passwd".toList, "secret-data".toList⟩ := by decide

end DesoMcp
